import Mathlib

/-!
Verification of the project-council deliberation pipeline against its
natural-language specification.

The development shallowly embeds the parts of the repository the claims
talk about:

* `Ledger` — the credit functions of `src/backend/supabase_schema.sql`
  (`get_account_credits`, `add_account_credits`, `consume_account_credit`)
  over an association-list model of the `account_credits` table.  Each
  plpgsql function runs in its own transaction; raising an exception rolls
  the transaction back, so an erroring call returns the pre-call table.
* `Messages` — the `messages` table and its `messages_payload_check`
  constraint.
* `Client` — the client's streaming-event dispatcher, abort handler and
  post-cancel polling loop (`handleSendMessage`,
  `refreshConversationAfterCancel` in the frontend `App` component).
* `Sse` — the client SSE chunk decoder (`sendMessageStream`).
* `Ranks` — Stage-2 rank aggregation, modelled from the spec (the server
  implementation is not part of the sources).
-/

namespace Ledger

/-- Authentication context of a SQL call: `auth.role()` and `auth.uid()`
(`none` models SQL NULL: an unauthenticated caller). -/
structure AuthCtx where
  role : String
  uid : Option String
deriving DecidableEq, Repr

/-- Exceptions raised by the credit functions. -/
inductive CreditErr where
  | forbidden
  | invalidCreditAmount
  | insufficientCredits
deriving DecidableEq, Repr

/-- The `account_credits` table: rows `(user_id, credits)`.
`user_id` is the primary key, so a real table has at most one row per id;
the operations below only ever look at the first matching row. -/
abbrev CreditsTable := List (String × Int)

/-- The stored credits row of a user, if any (`select credits ... where
user_id = u`). -/
def getRow : CreditsTable → String → Option Int
  | [], _ => none
  | (k, c) :: rest, u => if u = k then some c else getRow rest u

/-- `coalesce(credits, 0)`: the credits a user effectively has. -/
def creditsOf (t : CreditsTable) (u : String) : Int :=
  (getRow t u).getD 0

/-- The guard `auth.role() <> 'service_role' and auth.uid() is distinct
from p_user_id` (negated): the call is allowed for the service role or for
the subject user; SQL `IS DISTINCT FROM` treats NULL as distinct from
every value, so an unauthenticated caller is rejected. -/
def authOk (ctx : AuthCtx) (u : String) : Bool :=
  ctx.role == "service_role" || ctx.uid == some u

/-- `update account_credits set credits = c where user_id = u`. -/
def setRow (t : CreditsTable) (u : String) (c : Int) : CreditsTable :=
  t.map (fun kv => if kv.1 = u then (u, c) else kv)

/-- `insert into account_credits (user_id, credits) values (u, c)
on conflict (user_id) do nothing`. -/
def insertIfAbsent (t : CreditsTable) (u : String) (c : Int) : CreditsTable :=
  match getRow t u with
  | some _ => t
  | none => (u, c) :: t

/-- `public.get_account_credits(p_user_id)`: read-only, so only the result
is returned. -/
def get_account_credits (ctx : AuthCtx) (t : CreditsTable) (u : String) :
    Except CreditErr Int :=
  if authOk ctx u then .ok (creditsOf t u) else .error .forbidden

/-- `public.add_account_credits(p_user_id, p_amount)`.  The insert
`on conflict do update set credits = credits + excluded.credits` either
creates the row with `p_amount` or adds `p_amount` to it.  An exception
aborts the transaction, so the error cases return the pre-call table. -/
def add_account_credits (ctx : AuthCtx) (t : CreditsTable) (u : String)
    (amount : Int) : Except CreditErr Int × CreditsTable :=
  if authOk ctx u then
    if amount ≤ 0 then (.error .invalidCreditAmount, t)
    else
      match getRow t u with
      | some c => (.ok (c + amount), setRow t u (c + amount))
      | none => (.ok amount, (u, amount) :: t)
  else (.error .forbidden, t)

/-- `public.consume_account_credit(p_user_id)`: insert a `0`-credit row if
none exists, then atomically decrement where `credits > 0`; if no row
matched, raise `INSUFFICIENT_CREDITS` (which rolls the transaction — the
insert included — back, so the error cases return the pre-call table).
Each call runs in one transaction and the conditional update takes a row
lock, so concurrent calls serialize; the model therefore treats the whole
call as one atomic step. -/
def consume_account_credit (ctx : AuthCtx) (t : CreditsTable) (u : String) :
    Except CreditErr Int × CreditsTable :=
  if authOk ctx u then
    let t1 := insertIfAbsent t u 0
    match getRow t1 u with
    | some c =>
      if 0 < c then (.ok (c - 1), setRow t1 u (c - 1))
      else (.error .insufficientCredits, t)
    | none => (.error .insufficientCredits, t)
  else (.error .forbidden, t)

/-- The `check (credits >= 0)` column constraint: every stored row is
non-negative. -/
def Nonneg (t : CreditsTable) : Prop :=
  ∀ kv ∈ t, 0 ≤ kv.2

instance (t : CreditsTable) : Decidable (Nonneg t) :=
  List.decidableBAll (fun kv : String × Int => 0 ≤ kv.2) t

end Ledger

namespace Messages

/-- A row of the `messages` table.  `J` stands for `jsonb` values; an SQL
NULL column is `none`, and any `jsonb` value — including empty objects or
arrays used for the stages of a cancelled turn — is `some`. -/
structure MessageRow (J : Type) where
  role : String
  content : Option String
  stage1 : Option J
  stage2 : Option J
  stage3 : Option J
deriving DecidableEq, Repr

/-- The column constraint `check (role in ('user', 'assistant'))`. -/
def roleCheck {J : Type} (r : MessageRow J) : Bool :=
  r.role == "user" || r.role == "assistant"

/-- The table constraint `messages_payload_check`. -/
def payloadCheck {J : Type} (r : MessageRow J) : Bool :=
  (r.role == "user" && r.content.isSome && r.stage1.isNone &&
    r.stage2.isNone && r.stage3.isNone) ||
  (r.role == "assistant" && r.content.isNone && r.stage1.isSome &&
    r.stage2.isSome && r.stage3.isSome)

/-- Inserting into `messages`: the row is stored only if every check
constraint accepts it; otherwise the insert fails and the table is
unchanged. -/
def insertMessage {J : Type} (tbl : List (MessageRow J)) (r : MessageRow J) :
    Except Unit (List (MessageRow J)) :=
  if roleCheck r && payloadCheck r then .ok (tbl ++ [r]) else .error ()

/-- Tables reachable from the empty table by successful inserts. -/
inductive Reachable {J : Type} : List (MessageRow J) → Prop where
  | nil : Reachable []
  | step {tbl tbl2 : List (MessageRow J)} {r : MessageRow J} :
      Reachable tbl → insertMessage tbl r = .ok tbl2 → Reachable tbl2

end Messages

namespace Client

/-- The per-message stage loading flags of the client. -/
structure LoadingFlags where
  stage1 : Bool
  stage2 : Bool
  stage3 : Bool
deriving DecidableEq, Repr

/-- `emptyUsageSummary()` of the frontend `App` component. -/
structure UsageSummary where
  input_tokens : Nat
  output_tokens : Nat
  total_tokens : Nat
  total_cost : Nat
  model_calls : Nat
deriving DecidableEq, Repr

def emptyUsageSummary : UsageSummary := ⟨0, 0, 0, 0, 0⟩

/-- The object the abort handler synthesizes locally for `stage3`. -/
structure CancelledResult where
  model : String
  response : String
  usage : UsageSummary
  cancelled : Bool
deriving DecidableEq, Repr

/-- A value stored in a message's `stage3` slot: either data delivered by
the server stream or the locally synthesized cancelled placeholder. -/
inductive Stage3Slot (V : Type) where
  | fromServer (d : V)
  | cancelled (c : CancelledResult)
deriving DecidableEq

/-- The placeholder assigned when cancelling with no stage-3 result:
`{model: 'system/cancelled', response: t('chat.generationStopped'),
usage: emptyUsageSummary(), cancelled: true}`. -/
def cancelledPlaceholder (V : Type) (stoppedText : String) : Stage3Slot V :=
  .cancelled ⟨"system/cancelled", stoppedText, emptyUsageSummary, true⟩

/-- A chat message held in client state.  `V` stands for the opaque JSON
payloads the server sends. -/
structure Msg (V : Type) where
  role : String
  content : Option String
  stage1 : Option V
  stage2 : Option V
  stage3 : Option (Stage3Slot V)
  metadata : Option V
  loading : LoadingFlags
deriving DecidableEq

/-- Client conversation state: its messages plus the conversation-level
usage field touched by the `complete` event. -/
structure Conv (V : Type) where
  messages : List (Msg V)
  usage : Option V
deriving DecidableEq

/-- A parsed stream event's payload fields, as read by the dispatcher. -/
structure EventPayload (V : Type) where
  data : Option V
  metadata : Option V
  conversation_usage : Option V
deriving DecidableEq

/-- `messages[messages.length - 1]` is mutated in place and the copied
array stored back: every message but the last is unchanged.  (With an
empty message list the JS would fault; the claims assume a last message
exists.) -/
def updateLast {V : Type} (c : Conv V) (f : Msg V → Msg V) : Conv V :=
  match c.messages.getLast? with
  | some m => { c with messages := c.messages.dropLast ++ [f m] }
  | none => c

/-- The `onEvent` switch of `handleSendMessage`, restricted to its effect
on the conversation state (`setCurrentConversation`); branches that only
touch caches, credits or loading spinners outside the conversation
(`title_complete`, `error`) leave it unchanged, as does the `default`
branch for unknown event types. -/
def applyEvent {V : Type} (c : Conv V) (eventType : String)
    (ev : EventPayload V) : Conv V :=
  if eventType = "stage1_start" then
    updateLast c (fun m => { m with loading := { m.loading with stage1 := true } })
  else if eventType = "stage1_complete" then
    updateLast c (fun m => { m with
      stage1 := ev.data,
      loading := { m.loading with stage1 := false } })
  else if eventType = "stage2_start" then
    updateLast c (fun m => { m with loading := { m.loading with stage2 := true } })
  else if eventType = "stage2_complete" then
    updateLast c (fun m => { m with
      stage2 := ev.data,
      metadata := ev.metadata,
      loading := { m.loading with stage2 := false } })
  else if eventType = "stage3_start" then
    updateLast c (fun m => { m with loading := { m.loading with stage3 := true } })
  else if eventType = "stage3_complete" then
    updateLast c (fun m => { m with
      stage3 := ev.data.map .fromServer,
      loading := { m.loading with stage3 := false } })
  else if eventType = "title_complete" then
    c
  else if eventType = "complete" then
    let c2 :=
      match c.messages.getLast? with
      | some m =>
        if m.role = "assistant" ∧ ev.metadata.isSome then
          { c with messages := c.messages.dropLast ++
              [{ m with metadata := ev.metadata }] }
        else c
      | none => c
    { c2 with usage :=
        (match ev.conversation_usage with
          | some u => some u
          | none => c2.usage) }
  else if eventType = "error" then
    c
  else
    c

/-- The abort handler of `handleSendMessage` (the `isAbortError` branch):
clear all loading flags on the last message if it is an assistant
message, and assign the cancelled placeholder to `stage3` only when no
stage-3 value had arrived. -/
def abortUpdate {V : Type} (c : Conv V) (stoppedText : String) : Conv V :=
  match c.messages.getLast? with
  | some m =>
    if m.role = "assistant" then
      { c with messages := c.messages.dropLast ++
          [{ m with
              loading := ⟨false, false, false⟩,
              stage3 :=
                (match m.stage3 with
                  | some s => some s
                  | none => some (cancelledPlaceholder V stoppedText)) }] }
    else c
  | none => c

/-- Result of one `api.getConversation` poll. -/
inductive FetchResult (V : Type) where
  | ok (c : Conv V)
  | err401
  | errOther
deriving DecidableEq

/-- What the polling loop observes at one attempt: the ref holding the id
of the currently displayed conversation, and the fetch outcome. -/
structure PollEnv (V : Type) where
  currentId : Option String
  fetch : FetchResult V
deriving DecidableEq

/-- `fetchedMessages[fetchedMessages.length - 1]?.role === 'assistant'`. -/
def lastIsAssistant {V : Type} (c : Conv V) : Bool :=
  match c.messages.getLast? with
  | some m => m.role == "assistant"
  | none => false

/-- The body of `refreshConversationAfterCancel`: attempt index `i`,
remaining attempts `fuel`.  Each iteration first stops silently if the
user switched conversations, then polls: a fetched conversation is taken
only if it has at least the pre-cancellation minimum number of messages
and its last message is an assistant message; a 401 stops the loop; any
other fetch error just retries. -/
def refreshAux {V : Type} (convId : String) (minCount : Nat)
    (obs : Nat → PollEnv V) : Nat → Nat → Option (Conv V)
  | _, 0 => none
  | i, fuel + 1 =>
    if (obs i).currentId ≠ some convId then none
    else
      match (obs i).fetch with
      | .ok conv =>
        if minCount ≤ conv.messages.length ∧ lastIsAssistant conv then
          some conv
        else refreshAux convId minCount obs (i + 1) fuel
      | .err401 => none
      | .errOther => refreshAux convId minCount obs (i + 1) fuel

/-- `refreshConversationAfterCancel` polls at most `maxAttempts = 8`
times; `some` is the conversation written back via
`setCurrentConversation`, `none` means the display was not updated. -/
def refreshConversationAfterCancel {V : Type} (convId : String)
    (minCount : Nat) (obs : Nat → PollEnv V) : Option (Conv V) :=
  refreshAux convId minCount obs 0 8

/-- Modelled from the spec: the server-side Turn Orchestrator and its
storage writes are missing from the sources (only the client and the SQL
schema are present).  Spec §4.5: on cancellation no further stage starts,
a ChairmanResult with `cancelled = true` and a placeholder text is
synthesized locally — no chairman call — if Stage3 had not already
produced one, and the Turn is still persisted in full. -/
structure ChairmanResult where
  modelId : String
  text : String
  cancelled : Bool
deriving DecidableEq, Repr

/-- Modelled from the spec: the Turn aggregate as far as cancellation
is concerned — Stage1 data, Stage2 data and the chairman result. -/
structure Turn (V : Type) where
  stage1 : List V
  stage2 : List V
  chairman : Option ChairmanResult
deriving DecidableEq

/-- Modelled from the spec: local synthesis of the cancelled
ChairmanResult when Stage3 has not produced one. -/
def synthesizeCancelled {V : Type} (t : Turn V) (txt : String) : Turn V :=
  { t with chairman :=
      (match t.chairman with
        | some c => some c
        | none => some ⟨"system/cancelled", txt, true⟩) }

/-- Modelled from the spec: `put(turn)` on the storage collaborator. -/
def persistTurn {V : Type} (store : List (Turn V)) (t : Turn V) :
    List (Turn V) :=
  store ++ [t]

/-- Fixtures for the concrete witnesses below. -/
def msgW : Msg Unit :=
  ⟨"assistant", none, none, none, none, none, ⟨false, false, false⟩⟩

def convW : Conv Unit := ⟨[msgW], none⟩

def evW : EventPayload Unit := ⟨some (), some (), some ()⟩

def obsW : Nat → PollEnv Unit := fun _ => ⟨some "c1", .ok convW⟩

end Client

namespace Ranks

/-- Modelled from the spec: the Stage-2 Reviewer's aggregation code is
server-side and missing from the sources; these definitions follow spec
§4.3's aggregation rule word for word.  A PeerEvaluation carries its
evaluator, the ordered list of labels parsed from the raw ranking text,
and whether parsing failed. -/
structure PeerEvaluation where
  evaluator : String
  parsedOrder : List String
  failed : Bool
deriving DecidableEq, Repr

/-- Modelled from the spec: one `AggregateRank` row. -/
structure AggregateRank where
  modelId : String
  averageRank : ℚ
  evaluationCount : Nat
deriving DecidableEq, Repr

/-- 1-based position of a label in a parsed order, if present. -/
def posOf (label : String) : List String → Option Nat
  | [] => none
  | l :: rest => if l = label then some 1 else (posOf label rest).map (· + 1)

/-- The 1-based positions of a label across the successfully parsed
evaluations whose parsed order contains it. -/
def mentionPositions (label : String) (evals : List PeerEvaluation) :
    List Nat :=
  evals.filterMap (fun e =>
    if e.failed then none else posOf label e.parsedOrder)

/-- Modelled from the spec: build `AggregateRank` for the council,
skipping every modelId with no successfully parsed mention. -/
def aggregateRanks (models : List String) (labelOf : String → String)
    (evals : List PeerEvaluation) : List AggregateRank :=
  models.filterMap (fun mid =>
    let ps := mentionPositions (labelOf mid) evals
    if ps = [] then none
    else some ⟨mid, (ps.map (fun n => (n : ℚ))).sum / ps.length, ps.length⟩)

end Ranks

namespace Sse

/-- `buffer.replace(/\r\n/g, '\n')`: the leftmost-scan global replacement
of CR LF pairs by LF, over characters (`TextDecoder` with `stream: true`
makes the byte-to-character step chunking-independent, so the model works
on characters). -/
def normCRLF : List Char → List Char
  | [] => []
  | [c] => [c]
  | c1 :: c2 :: rest =>
    if c1 = '\r' ∧ c2 = '\n' then '\n' :: normCRLF rest
    else c1 :: normCRLF (c2 :: rest)

/-- One pass of the inner `while` loop family: split the buffer at every
`"\n\n"` separator (leftmost first, non-overlapping), returning the
completed blocks and the unconsumed remainder. -/
def splitBlocks : List Char → List (List Char) × List Char
  | [] => ([], [])
  | [c] => ([], [c])
  | c1 :: c2 :: rest =>
    if c1 = '\n' ∧ c2 = '\n' then
      let q := splitBlocks rest
      ([] :: q.1, q.2)
    else
      let q := splitBlocks (c2 :: rest)
      match q.1 with
      | [] => ([], c1 :: q.2)
      | b :: bs => ((c1 :: b) :: bs, q.2)

/-- Whether the text contains a CR LF pair. -/
def hasCRLF : List Char → Bool
  | [] => false
  | [_] => false
  | c1 :: c2 :: rest =>
    if c1 = '\r' ∧ c2 = '\n' then true else hasCRLF (c2 :: rest)

/-- Whether the text contains the sequence CR CR LF. -/
def hasCRCRLF : List Char → Bool
  | [] => false
  | [_] => false
  | [_, _] => false
  | c1 :: c2 :: c3 :: rest =>
    if c1 = '\r' ∧ c2 = '\r' ∧ c3 = '\n' then true
    else hasCRCRLF (c2 :: c3 :: rest)

/-- Whether the text contains a `"\n\n"` separator. -/
def hasNLNL : List Char → Bool
  | [] => false
  | [_] => false
  | c1 :: c2 :: rest =>
    if c1 = '\n' ∧ c2 = '\n' then true else hasNLNL (c2 :: rest)

/-- The ASCII whitespace removed by `trim()`/`trimStart()` in the inputs
we model. -/
def isWS (c : Char) : Bool :=
  c = ' ' || c = '\t' || c = '\n' || c = '\r'

/-- `.trimStart()`. -/
def trimL (s : List Char) : List Char := s.dropWhile isWS

/-- `.trim()`. -/
def trim (s : List Char) : List Char :=
  ((s.dropWhile isWS).reverse.dropWhile isWS).reverse

/-- `.split('\n')`. -/
def splitOnNL : List Char → List (List Char)
  | [] => [[]]
  | c :: rest =>
    if c = '\n' then [] :: splitOnNL rest
    else
      match splitOnNL rest with
      | [] => [[c]]
      | l :: ls => (c :: l) :: ls

/-- `.startsWith('data:')`. -/
def isDataLine (l : List Char) : Bool :=
  l.take 5 == ['d', 'a', 't', 'a', ':']

/-- `parseEventBlock`: trim the block (done by the caller in the source;
folded in here), drop it when empty, keep the `data:` lines, join their
payloads and hand them to the JSON parser.  `parse` abstracts
`JSON.parse` + the `onEvent` call; a `none` result models the caught
parse error: the block is skipped and the stream continues. -/
def parseEventBlock {E : Type} (parse : List Char → Option E)
    (block : List Char) : Option E :=
  let tb := trim block
  if tb = [] then none
  else
    let ds := (splitOnNL tb).filter isDataLine
    if ds = [] then none
    else parse (List.intercalate ['\n'] (ds.map (fun l => trimL (l.drop 5))))

/-- The read loop of `sendMessageStream` at block granularity: every read
iteration appends the decoded chunk, re-normalizes the whole buffer and
consumes all complete blocks; the final `done` read runs one more
normalize-and-consume pass over the remaining buffer, whose remainder is
the trailing block. -/
def runBlocks : List (List Char) → List Char → List (List Char)
  | [], buf =>
    let q := splitBlocks (normCRLF buf)
    q.1 ++ [q.2]
  | c :: cs, buf =>
    let q := splitBlocks (normCRLF (buf ++ c))
    q.1 ++ runBlocks cs q.2

/-- The ordered sequence of events `sendMessageStream` delivers to
`onEvent`, given the transport's chunking of the byte stream. -/
def sendMessageStream {E : Type} (parse : List Char → Option E)
    (chunks : List (List Char)) : List E :=
  (runBlocks chunks []).filterMap (parseEventBlock parse)

/-- A parse function agreeing with `JSON.parse` on every data string the
counterexample produces: `"1"` and `"2"` parse, `"1\n2"` (two JSON
values) throws. -/
def pJson : List Char → Option Nat := fun d =>
  if d = ['1'] then some 1 else if d = ['2'] then some 2 else none

end Sse

namespace Ledger

theorem setRow_cons (k : String) (b : Int) (rest : CreditsTable)
    (u : String) (c : Int) :
    setRow ((k, b) :: rest) u c =
      (if k = u then (u, c) else (k, b)) :: setRow rest u c := rfl

theorem getRow_setRow_self (t : CreditsTable) (u : String) (c : Int) :
    getRow (setRow t u c) u = if (getRow t u).isSome then some c else none := by
  induction t with
  | nil => simp [setRow, getRow]
  | cons kv rest ih =>
    obtain ⟨k, b⟩ := kv
    rw [setRow_cons]
    by_cases h : k = u
    · subst h
      rw [if_pos rfl]
      simp [getRow]
    · have h2 : ¬u = k := fun he => h he.symm
      rw [if_neg h]
      simp [getRow, h2]
      exact ih

theorem getRow_setRow_other (t : CreditsTable) (u v : String) (c : Int)
    (hne : v ≠ u) : getRow (setRow t u c) v = getRow t v := by
  induction t with
  | nil => simp [setRow, getRow]
  | cons kv rest ih =>
    obtain ⟨k, b⟩ := kv
    rw [setRow_cons]
    by_cases h : k = u
    · subst h
      rw [if_pos rfl]
      simp [getRow, hne]
      exact ih
    · rw [if_neg h]
      by_cases h4 : v = k
      · subst h4
        simp [getRow]
      · simp [getRow, h4]
        exact ih

theorem nonneg_setRow (t : CreditsTable) (u : String) (c : Int)
    (ht : Nonneg t) (hc : 0 ≤ c) : Nonneg (setRow t u c) := by
  intro kv hkv
  rcases List.mem_map.mp hkv with ⟨kv0, hkv0, heq⟩
  by_cases h : kv0.1 = u
  · simp [h] at heq
    rw [← heq]
    exact hc
  · simp [h] at heq
    rw [← heq]
    exact ht kv0 hkv0

theorem mem_of_getRow_some {t : CreditsTable} {u : String} {c : Int}
    (h : getRow t u = some c) : ∃ k, (k, c) ∈ t := by
  induction t with
  | nil => simp [getRow] at h
  | cons kv rest ih =>
    obtain ⟨k, b⟩ := kv
    by_cases he : u = k
    · simp [getRow, he] at h
      exact ⟨k, by simp [h]⟩
    · simp [getRow, he] at h
      rcases ih h with ⟨k2, hk⟩
      exact ⟨k2, List.mem_cons_of_mem _ hk⟩

theorem creditsOf_nonneg (t : CreditsTable) (u : String) (ht : Nonneg t) :
    0 ≤ creditsOf t u := by
  unfold creditsOf
  cases hl : getRow t u with
  | none => simp
  | some c =>
    simp only [Option.getD_some]
    rcases mem_of_getRow_some hl with ⟨k, hk⟩
    exact ht (k, c) hk

theorem getRow_insertIfAbsent_none {t : CreditsTable} {u : String}
    (h : getRow t u = none) (c : Int) :
    insertIfAbsent t u c = (u, c) :: t := by
  simp [insertIfAbsent, h]

theorem getRow_insertIfAbsent_some {t : CreditsTable} {u : String} {b : Int}
    (h : getRow t u = some b) (c : Int) :
    insertIfAbsent t u c = t := by
  simp [insertIfAbsent, h]

/-- C1: for every subject, when credits are positive an authorized
`consume_account_credit` decrements them by exactly one and returns the
new remaining value; it fails with `INSUFFICIENT_CREDITS` (the spec's
`InsufficientQuota`) exactly when the subject's credits are zero —
including for a subject with no row yet, whose freshly created `0` row is
rolled back with the failing transaction — leaving the stored credits
unchanged; a successful call never stores or returns a negative value. -/
theorem consume_credit_atomic_decrement (ctx : AuthCtx) (t : CreditsTable)
    (u : String) (hauth : authOk ctx u = true) (hinv : Nonneg t) :
    (0 < creditsOf t u →
      consume_account_credit ctx t u =
        (.ok (creditsOf t u - 1), setRow t u (creditsOf t u - 1))) ∧
    (creditsOf t u = 0 →
      consume_account_credit ctx t u = (.error .insufficientCredits, t)) ∧
    (∀ r t2, consume_account_credit ctx t u = (.ok r, t2) →
      0 ≤ r ∧ creditsOf t2 u = r ∧ Nonneg t2) := by
  cases hrow : getRow t u with
  | none =>
    have hc : creditsOf t u = 0 := by simp [creditsOf, hrow]
    have hres : consume_account_credit ctx t u =
        (.error .insufficientCredits, t) := by
      simp [consume_account_credit, hauth, getRow_insertIfAbsent_none hrow,
        getRow]
    refine ⟨?_, fun _ => hres, ?_⟩
    · intro h0
      rw [hc] at h0
      exact absurd h0 (lt_irrefl 0)
    · intro r t2 h
      rw [hres] at h
      exact absurd (congrArg Prod.fst h) (by simp)
  | some c =>
    have hc : creditsOf t u = c := by simp [creditsOf, hrow]
    have hcnn : 0 ≤ c := by
      rcases mem_of_getRow_some hrow with ⟨k, hk⟩
      exact hinv (k, c) hk
    by_cases hpos : 0 < c
    · have hres : consume_account_credit ctx t u =
          (.ok (c - 1), setRow t u (c - 1)) := by
        simp [consume_account_credit, hauth, getRow_insertIfAbsent_some hrow,
          hrow, hpos]
      refine ⟨fun _ => by rw [hc]; exact hres, ?_, ?_⟩
      · intro h0
        rw [hc] at h0
        omega
      · intro r t2 h
        rw [hres] at h
        have h1 : (Except.ok (c - 1) : Except CreditErr Int) = .ok r :=
          congrArg Prod.fst h
        have h2 : setRow t u (c - 1) = t2 := congrArg Prod.snd h
        have hr : c - 1 = r := by injection h1
        refine ⟨by omega, ?_, ?_⟩
        · rw [← h2, ← hr]
          simp [creditsOf, getRow_setRow_self, hrow]
        · rw [← h2]
          exact nonneg_setRow t u (c - 1) hinv (by omega)
    · have hc0 : c = 0 := by omega
      subst hc0
      have hres : consume_account_credit ctx t u =
          (.error .insufficientCredits, t) := by
        simp [consume_account_credit, hauth, getRow_insertIfAbsent_some hrow,
          hrow]
      refine ⟨?_, fun _ => hres, ?_⟩
      · intro h0
        rw [hc] at h0
        exact absurd h0 (lt_irrefl 0)
      · intro r t2 h
        rw [hres] at h
        exact absurd (congrArg Prod.fst h) (by simp)

/-- Witness for `consume_credit_atomic_decrement`: the service role
consumes one of alice's two credits, leaving one. -/
theorem consume_credit_atomic_decrement_witness :
    consume_account_credit ⟨"service_role", none⟩ [("alice", 2)] "alice" =
      (.ok 1, [("alice", 1)]) := by
  have h := (consume_credit_atomic_decrement ⟨"service_role", none⟩
    [("alice", 2)] "alice" (by decide) (by decide)).1 (by decide)
  rw [h]
  rfl

/-- C2: two authorized `consume_account_credit` calls for the same subject
against a ledger holding exactly one credit produce one success (remaining
`0`) and one `INSUFFICIENT_CREDITS` failure.  Each call is a single
transaction whose conditional decrement takes a row lock, so any
concurrent execution serializes into this sequential composition; the
callers' contexts are arbitrary, covering both serialization orders. -/
theorem consume_credit_single_winner (ctx1 ctx2 : AuthCtx) (t : CreditsTable)
    (u : String) (h1 : authOk ctx1 u = true) (h2 : authOk ctx2 u = true)
    (hrem : creditsOf t u = 1) :
    (consume_account_credit ctx1 t u).1 = .ok 0 ∧
    (consume_account_credit ctx2 (consume_account_credit ctx1 t u).2 u).1 =
      .error .insufficientCredits := by
  have hrow : getRow t u = some 1 := by
    unfold creditsOf at hrem
    cases hg : getRow t u with
    | none => rw [hg] at hrem; simp at hrem
    | some c => rw [hg] at hrem; simp at hrem; rw [hrem]
  have hres : consume_account_credit ctx1 t u = (.ok 0, setRow t u 0) := by
    simp [consume_account_credit, h1, getRow_insertIfAbsent_some hrow, hrow]
  have hrow2 : getRow (setRow t u 0) u = some 0 := by
    simp [getRow_setRow_self, hrow]
  refine ⟨by rw [hres], ?_⟩
  rw [hres]
  simp [consume_account_credit, h2, getRow_insertIfAbsent_some hrow2, hrow2]

/-- Witness for `consume_credit_single_winner`: starting from one credit,
the first turn gets it and the second is rejected. -/
theorem consume_credit_single_winner_witness :
    (consume_account_credit ⟨"service_role", none⟩ [("alice", 1)] "alice").1 =
      .ok 0 ∧
    (consume_account_credit ⟨"authenticated", some "alice"⟩
      (consume_account_credit ⟨"service_role", none⟩ [("alice", 1)] "alice").2
      "alice").1 = .error .insufficientCredits :=
  consume_credit_single_winner ⟨"service_role", none⟩
    ⟨"authenticated", some "alice"⟩ [("alice", 1)] "alice"
    (by decide) (by decide) (by decide)

/-- Counterexample to C3 as stated: the first use of the ledger for a
fresh subject does not create an entry with full capacity — the call
fails with `INSUFFICIENT_CREDITS` and afterwards the subject still has no
row at all (the freshly inserted `0` row is rolled back with the failing
transaction), so no first-use entry with positive capacity ever exists. -/
theorem first_use_creates_no_full_entry :
    consume_account_credit ⟨"service_role", none⟩ [] "u1" =
      (.error .insufficientCredits, []) ∧
    getRow (consume_account_credit ⟨"service_role", none⟩ [] "u1").2 "u1" =
      none :=
  ⟨rfl, rfl⟩

/-- C3 (amended): a subject's ledger entry is created by the first credit
grant (`add_account_credits`) with exactly the granted amount, not on
first use with full capacity: consuming with no entry fails with
`INSUFFICIENT_CREDITS` and persists no entry; thereafter every authorized
successful consume decrements the entry by exactly one, and the entry
never goes negative. -/
theorem ledger_entry_lifecycle (ctx : AuthCtx) (t : CreditsTable)
    (u : String) (amount : Int) (hauth : authOk ctx u = true)
    (hinv : Nonneg t) :
    (getRow t u = none →
      consume_account_credit ctx t u = (.error .insufficientCredits, t)) ∧
    (getRow t u = none → 0 < amount →
      add_account_credits ctx t u amount = (.ok amount, (u, amount) :: t)) ∧
    (∀ r t2, consume_account_credit ctx t u = (.ok r, t2) →
      creditsOf t2 u = creditsOf t u - 1 ∧ 0 ≤ r ∧ Nonneg t2) := by
  refine ⟨?_, ?_, ?_⟩
  · intro hrow
    simp [consume_account_credit, hauth, getRow_insertIfAbsent_none hrow,
      getRow]
  · intro hrow hpos
    have hle : ¬amount ≤ 0 := by omega
    simp [add_account_credits, hauth, hrow, hle]
  · intro r t2 h
    have hspec := (consume_credit_atomic_decrement ctx t u hauth hinv).2.2
      r t2 h
    rcases hspec with ⟨hr, hc2, hnn⟩
    refine ⟨?_, hr, hnn⟩
    rw [hc2]
    -- a successful consume implies the credits were positive; recover r
    cases hrow : getRow t u with
    | none =>
      exfalso
      have hres : consume_account_credit ctx t u =
          (.error .insufficientCredits, t) := by
        simp [consume_account_credit, hauth, getRow_insertIfAbsent_none hrow,
          getRow]
      rw [hres] at h
      exact absurd (congrArg Prod.fst h) (by simp)
    | some c =>
      by_cases hpos : 0 < c
      · have hres : consume_account_credit ctx t u =
            (.ok (c - 1), setRow t u (c - 1)) := by
          simp [consume_account_credit, hauth,
            getRow_insertIfAbsent_some hrow, hrow, hpos]
        rw [hres] at h
        have h1 : (Except.ok (c - 1) : Except CreditErr Int) = .ok r :=
          congrArg Prod.fst h
        have hr2 : c - 1 = r := by injection h1
        simp [creditsOf, hrow, ← hr2]
      · have hres : consume_account_credit ctx t u =
            (.error .insufficientCredits, t) := by
          simp [consume_account_credit, hauth,
            getRow_insertIfAbsent_some hrow, hrow, hpos]
        rw [hres] at h
        exact absurd (congrArg Prod.fst h) (by simp)

/-- Witness for `ledger_entry_lifecycle`: a fresh subject cannot consume;
a grant of `3` creates the entry with `3`. -/
theorem ledger_entry_lifecycle_witness :
    consume_account_credit ⟨"service_role", none⟩ [] "bob" =
      (.error .insufficientCredits, []) ∧
    add_account_credits ⟨"service_role", none⟩ [] "bob" 3 =
      (.ok 3, [("bob", 3)]) := by
  have h := ledger_entry_lifecycle ⟨"service_role", none⟩ [] "bob" 3
    (by decide) (by decide)
  exact ⟨h.1 (by decide), h.2.1 (by decide) (by decide)⟩

/-- C10: each credit function raises `FORBIDDEN` — leaving the stored
credits unchanged — when the caller is neither the service role nor the
subject user (an unauthenticated caller, `auth.uid()` NULL, is always
rejected since `IS DISTINCT FROM` treats NULL as distinct); additionally
`add_account_credits` raises `INVALID_CREDIT_AMOUNT` for every amount
`≤ 0`, and whenever it succeeds the amount was positive and the subject's
credits increased by exactly that amount. -/
theorem credit_functions_access_control (ctx : AuthCtx) (t : CreditsTable)
    (u : String) (amount : Int) :
    (ctx.role ≠ "service_role" → ctx.uid ≠ some u →
      get_account_credits ctx t u = .error .forbidden ∧
      add_account_credits ctx t u amount = (.error .forbidden, t) ∧
      consume_account_credit ctx t u = (.error .forbidden, t)) ∧
    (authOk ctx u = true → amount ≤ 0 →
      add_account_credits ctx t u amount = (.error .invalidCreditAmount, t)) ∧
    (∀ r t2, add_account_credits ctx t u amount = (.ok r, t2) →
      0 < amount ∧ creditsOf t2 u = creditsOf t u + amount) := by
  refine ⟨?_, ?_, ?_⟩
  · intro hrole huid
    have hath : authOk ctx u = false := by
      simp [authOk, hrole, huid]
    exact ⟨by simp [get_account_credits, hath],
      by simp [add_account_credits, hath],
      by simp [consume_account_credit, hath]⟩
  · intro hath hle
    simp [add_account_credits, hath, hle]
  · intro r t2 h
    by_cases hath : authOk ctx u = true
    · by_cases hle : amount ≤ 0
      · rw [show add_account_credits ctx t u amount =
            (.error .invalidCreditAmount, t) by
              simp [add_account_credits, hath, hle]] at h
        exact absurd (congrArg Prod.fst h) (by simp)
      · refine ⟨by omega, ?_⟩
        cases hrow : getRow t u with
        | none =>
          have hres : add_account_credits ctx t u amount =
              (.ok amount, (u, amount) :: t) := by
            simp [add_account_credits, hath, hle, hrow]
          rw [hres] at h
          have h2 : ((u, amount) :: t : CreditsTable) = t2 :=
            congrArg Prod.snd h
          rw [← h2]
          simp [creditsOf, getRow, hrow]
        | some c =>
          have hres : add_account_credits ctx t u amount =
              (.ok (c + amount), setRow t u (c + amount)) := by
            simp [add_account_credits, hath, hle, hrow]
          rw [hres] at h
          have h2 : setRow t u (c + amount) = t2 := congrArg Prod.snd h
          rw [← h2]
          simp [creditsOf, getRow_setRow_self, hrow]
    · have hath2 : authOk ctx u = false := by
        cases hb : authOk ctx u
        · rfl
        · exact absurd hb hath
      rw [show add_account_credits ctx t u amount = (.error .forbidden, t) by
        simp [add_account_credits, hath2]] at h
      exact absurd (congrArg Prod.fst h) (by simp)

/-- Witness for `credit_functions_access_control`: a stranger cannot read,
grant or consume bob's credits, and a non-positive grant is rejected. -/
theorem credit_functions_access_control_witness :
    (get_account_credits ⟨"authenticated", some "eve"⟩ [("bob", 4)] "bob" =
        .error .forbidden ∧
      add_account_credits ⟨"authenticated", some "eve"⟩ [("bob", 4)] "bob" 5 =
        (.error .forbidden, [("bob", 4)]) ∧
      consume_account_credit ⟨"authenticated", some "eve"⟩ [("bob", 4)]
        "bob" = (.error .forbidden, [("bob", 4)])) ∧
    add_account_credits ⟨"service_role", none⟩ [("bob", 4)] "bob" 0 =
      (.error .invalidCreditAmount, [("bob", 4)]) := by
  have h := credit_functions_access_control ⟨"authenticated", some "eve"⟩
    [("bob", 4)] "bob" 5
  have h0 := credit_functions_access_control ⟨"service_role", none⟩
    [("bob", 4)] "bob" 0
  exact ⟨h.1 (by decide) (by decide), h0.2.1 (by decide) (by decide)⟩

end Ledger

namespace Messages

theorem payloadCheck_user {J : Type} {r : MessageRow J}
    (hpc : payloadCheck r = true) (hu : r.role = "user") :
    r.content.isSome ∧ r.stage1 = none ∧ r.stage2 = none ∧ r.stage3 = none := by
  unfold payloadCheck at hpc
  simp [hu] at hpc
  obtain ⟨⟨⟨h1, h2⟩, h3⟩, h4⟩ := hpc
  exact ⟨h1, h2, h3, h4⟩

theorem payloadCheck_assistant {J : Type} {r : MessageRow J}
    (hpc : payloadCheck r = true) (ha : r.role = "assistant") :
    r.content = none ∧ r.stage1.isSome ∧ r.stage2.isSome ∧ r.stage3.isSome := by
  unfold payloadCheck at hpc
  simp [ha] at hpc
  obtain ⟨⟨⟨h1, h2⟩, h3⟩, h4⟩ := hpc
  exact ⟨h1, h2, h3, h4⟩

/-- C8: every row of a reachable `messages` table satisfies the payload
invariant — a `user` row has non-null content and all-null stages, an
`assistant` row has null content and all three stage payloads non-null —
and an assistant row with any stage payload NULL is rejected by the
insert, so an assistant turn (a cancelled one included) persists only
with all three stage payloads present as non-null `jsonb` values. -/
theorem messages_payload_invariant {J : Type} (tbl : List (MessageRow J))
    (hr : Reachable tbl) :
    (∀ r ∈ tbl,
      (r.role = "user" →
        r.content.isSome ∧ r.stage1 = none ∧ r.stage2 = none ∧
          r.stage3 = none) ∧
      (r.role = "assistant" →
        r.content = none ∧ r.stage1.isSome ∧ r.stage2.isSome ∧
          r.stage3.isSome)) ∧
    (∀ (tb : List (MessageRow J)) (r : MessageRow J), r.role = "assistant" →
      (r.stage1 = none ∨ r.stage2 = none ∨ r.stage3 = none) →
      insertMessage tb r = .error ()) := by
  constructor
  · induction hr with
    | nil => intro r hmem; exact absurd hmem (List.not_mem_nil r)
    | step hreach hins ih =>
      rename_i tbl0 tbl2 r0
      unfold insertMessage at hins
      by_cases hok : (roleCheck r0 && payloadCheck r0) = true
      · rw [if_pos hok] at hins
        have htbl2 : tbl2 = tbl0 ++ [r0] := by injection hins with h; exact h.symm
        subst htbl2
        intro r hmem
        rcases List.mem_append.mp hmem with hin | hin
        · exact ih r hin
        · have hr0 : r = r0 := List.mem_singleton.mp hin
          subst hr0
          have hpc : payloadCheck r = true := by
            simp only [Bool.and_eq_true] at hok
            exact hok.2
          exact ⟨payloadCheck_user hpc, payloadCheck_assistant hpc⟩
      · rw [if_neg hok] at hins
        exact absurd hins (by simp)
  · intro tb r ha hnone
    unfold insertMessage
    have hpc : payloadCheck r = false := by
      unfold payloadCheck
      rcases hnone with h | h | h <;> simp [ha, h]
    simp [hpc]

/-- Witness for `messages_payload_invariant`: a table holding one user row
and one assistant row with empty (but non-null) stage payloads is
reachable and satisfies the invariant, and persisting an assistant row
with a NULL `stage3` fails. -/
theorem messages_payload_invariant_witness :
    (∀ r ∈ [(⟨"user", some "hi", none, none, none⟩ : MessageRow String),
        ⟨"assistant", none, some "[]", some "[]", some "{}"⟩],
      (r.role = "user" →
        r.content.isSome ∧ r.stage1 = none ∧ r.stage2 = none ∧
          r.stage3 = none) ∧
      (r.role = "assistant" →
        r.content = none ∧ r.stage1.isSome ∧ r.stage2.isSome ∧
          r.stage3.isSome)) ∧
    insertMessage ([] : List (MessageRow String))
      ⟨"assistant", none, some "[]", some "[]", none⟩ = .error () := by
  have hreach : Reachable
      [(⟨"user", some "hi", none, none, none⟩ : MessageRow String),
        ⟨"assistant", none, some "[]", some "[]", some "{}"⟩] := by
    refine @Reachable.step String [⟨"user", some "hi", none, none, none⟩]
      _ ⟨"assistant", none, some "[]", some "[]", some "{}"⟩
      (@Reachable.step String [] _ ⟨"user", some "hi", none, none, none⟩
        Reachable.nil rfl) rfl
  have h := messages_payload_invariant _ hreach
  exact ⟨h.1, h.2 [] ⟨"assistant", none, some "[]", some "[]", none⟩ rfl
    (Or.inr (Or.inr rfl))⟩

end Messages

namespace Client

/-- C4: when the caller aborts the turn, the abort handler rewrites only
the last (assistant) message: every loading flag is cleared, and `stage3`
receives the locally synthesized placeholder — a result with
`cancelled = true` carrying the stop text — exactly when no stage-3 value
had arrived; a stage-3 value that did arrive is kept.  The final conjunct
is modelled from the spec (the server orchestrator is not in the
sources): a turn cancelled between stages persists in full, with its
Stage1 data, empty Stage2 data and a cancelled ChairmanResult. -/
theorem abort_cancellation_spec {V : Type} (c : Conv V) (txt : String)
    (m : Msg V) (hm : c.messages.getLast? = some m)
    (ha : m.role = "assistant") :
    (m.stage3 = none →
      abortUpdate c txt =
        { c with messages := c.messages.dropLast ++
            [{ m with
                loading := ⟨false, false, false⟩,
                stage3 := some (cancelledPlaceholder V txt) }] }) ∧
    (∀ s, m.stage3 = some s →
      abortUpdate c txt =
        { c with messages := c.messages.dropLast ++
            [{ m with loading := ⟨false, false, false⟩ }] }) ∧
    cancelledPlaceholder V txt =
      .cancelled ⟨"system/cancelled", txt, emptyUsageSummary, true⟩ ∧
    (∀ (s1 : List V) (store : List (Turn V)),
      synthesizeCancelled ⟨s1, [], none⟩ txt =
        ⟨s1, [], some ⟨"system/cancelled", txt, true⟩⟩ ∧
      synthesizeCancelled ⟨s1, [], none⟩ txt ∈
        persistTurn store (synthesizeCancelled ⟨s1, [], none⟩ txt)) := by
  refine ⟨?_, ?_, rfl, ?_⟩
  · intro h3
    simp [abortUpdate, hm, ha, h3]
  · intro s h3
    simp [abortUpdate, hm, ha, h3]
  · intro s1 store
    exact ⟨rfl, by simp [persistTurn]⟩

/-- Witness for `abort_cancellation_spec`: aborting over a fresh
assistant message installs the cancelled placeholder. -/
theorem abort_cancellation_spec_witness :
    abortUpdate convW "stopped" =
      { convW with messages := convW.messages.dropLast ++
          [{ msgW with
              loading := ⟨false, false, false⟩,
              stage3 := some (cancelledPlaceholder Unit "stopped") }] } :=
  (abort_cancellation_spec convW "stopped" msgW rfl rfl).1 rfl

/-- C6: each of the six stage events rewrites only the last message of
the conversation — setting that stage's payload field and toggling that
stage's loading flag (plus `metadata` on `stage2_complete`) — leaving
every earlier message, every unrelated field of the last message and the
conversation's other fields unchanged; an event of unknown type leaves
the conversation state unchanged. -/
theorem stream_event_dispatch_frame {V : Type} (c : Conv V)
    (ev : EventPayload V) (m : Msg V) (hm : c.messages.getLast? = some m) :
    applyEvent c "stage1_start" ev =
      { c with messages := c.messages.dropLast ++
          [{ m with loading := { m.loading with stage1 := true } }] } ∧
    applyEvent c "stage1_complete" ev =
      { c with messages := c.messages.dropLast ++
          [{ m with
              stage1 := ev.data,
              loading := { m.loading with stage1 := false } }] } ∧
    applyEvent c "stage2_start" ev =
      { c with messages := c.messages.dropLast ++
          [{ m with loading := { m.loading with stage2 := true } }] } ∧
    applyEvent c "stage2_complete" ev =
      { c with messages := c.messages.dropLast ++
          [{ m with
              stage2 := ev.data,
              metadata := ev.metadata,
              loading := { m.loading with stage2 := false } }] } ∧
    applyEvent c "stage3_start" ev =
      { c with messages := c.messages.dropLast ++
          [{ m with loading := { m.loading with stage3 := true } }] } ∧
    applyEvent c "stage3_complete" ev =
      { c with messages := c.messages.dropLast ++
          [{ m with
              stage3 := ev.data.map .fromServer,
              loading := { m.loading with stage3 := false } }] } ∧
    (∀ et, et ≠ "stage1_start" → et ≠ "stage1_complete" →
      et ≠ "stage2_start" → et ≠ "stage2_complete" → et ≠ "stage3_start" →
      et ≠ "stage3_complete" → et ≠ "title_complete" → et ≠ "complete" →
      et ≠ "error" → applyEvent c et ev = c) := by
  refine ⟨?_, ?_, ?_, ?_, ?_, ?_, ?_⟩
  · simp [applyEvent, updateLast, hm]
  · simp [applyEvent, updateLast, hm]
  · simp [applyEvent, updateLast, hm]
  · simp [applyEvent, updateLast, hm]
  · simp [applyEvent, updateLast, hm]
  · simp [applyEvent, updateLast, hm]
  · intro et h1 h2 h3 h4 h5 h6 h7 h8 h9
    simp [applyEvent, h1, h2, h3, h4, h5, h6, h7, h8, h9]

/-- Witness for `stream_event_dispatch_frame`: `stage1_start` on a
one-message conversation turns on exactly the stage-1 spinner. -/
theorem stream_event_dispatch_frame_witness :
    applyEvent convW "stage1_start" evW =
      { convW with messages := convW.messages.dropLast ++
          [{ msgW with loading := { msgW.loading with stage1 := true } }] } :=
  (stream_event_dispatch_frame convW evW msgW rfl).1

theorem refreshAux_some {V : Type} (convId : String) (minCount : Nat)
    (obs : Nat → PollEnv V) :
    ∀ (fuel i : Nat) (conv : Conv V),
      refreshAux convId minCount obs i fuel = some conv →
      ∃ j, i ≤ j ∧ j < i + fuel ∧ (obs j).currentId = some convId ∧
        (obs j).fetch = .ok conv ∧ minCount ≤ conv.messages.length ∧
        lastIsAssistant conv = true := by
  intro fuel
  induction fuel with
  | zero =>
    intro i conv h
    simp [refreshAux] at h
  | succ n ih =>
    intro i conv h
    simp only [refreshAux] at h
    split at h
    · exact absurd h (by simp)
    · rename_i hcur
      have hc : (obs i).currentId = some convId := not_not.mp hcur
      split at h
      · rename_i conv2 heq
        split at h
        · rename_i hcond
          have hconv : conv2 = conv := by injection h
          subst hconv
          exact ⟨i, le_refl i, by omega, hc, heq, hcond.1, hcond.2⟩
        · rcases ih (i + 1) conv h with ⟨j, h1, h2, rest⟩
          exact ⟨j, by omega, by omega, rest⟩
      · exact absurd h (by simp)
      · rcases ih (i + 1) conv h with ⟨j, h1, h2, rest⟩
        exact ⟨j, by omega, by omega, rest⟩

theorem refreshAux_congr {V : Type} (convId : String) (minCount : Nat)
    (obs obs2 : Nat → PollEnv V) :
    ∀ (fuel i : Nat), (∀ j, i ≤ j → j < i + fuel → obs j = obs2 j) →
      refreshAux convId minCount obs i fuel =
        refreshAux convId minCount obs2 i fuel := by
  intro fuel
  induction fuel with
  | zero => intro i h; rfl
  | succ n ih =>
    intro i h
    have h0 : obs i = obs2 i := h i (le_refl i) (by omega)
    have hrec := ih (i + 1) (fun j hj1 hj2 => h j (by omega) (by omega))
    simp only [refreshAux, h0, hrec]

/-- C7: after an abort the client recovers by polling Turn Storage — the
displayed conversation is replaced only with a fetched conversation whose
last message is an assistant message and whose message count reaches the
pre-cancellation minimum; the loop consults at most the first 8 poll
attempts; and it stops without updating as soon as the user has switched
to a different conversation. -/
theorem refresh_poll_spec {V : Type} (convId : String) (minCount : Nat)
    (obs : Nat → PollEnv V) :
    (∀ conv, refreshConversationAfterCancel convId minCount obs = some conv →
      ∃ i, i < 8 ∧ (obs i).currentId = some convId ∧
        (obs i).fetch = .ok conv ∧ minCount ≤ conv.messages.length ∧
        lastIsAssistant conv = true) ∧
    (∀ obs2 : Nat → PollEnv V, (∀ i, i < 8 → obs i = obs2 i) →
      refreshConversationAfterCancel convId minCount obs =
        refreshConversationAfterCancel convId minCount obs2) ∧
    ((obs 0).currentId ≠ some convId →
      refreshConversationAfterCancel convId minCount obs = none) := by
  refine ⟨?_, ?_, ?_⟩
  · intro conv h
    rcases refreshAux_some convId minCount obs 8 0 conv h with
      ⟨j, h1, h2, rest⟩
    exact ⟨j, by omega, rest⟩
  · intro obs2 hag
    exact refreshAux_congr convId minCount obs obs2 8 0
      (fun j hj1 hj2 => hag j (by omega))
  · intro hne
    simp only [refreshConversationAfterCancel, refreshAux]
    rw [if_pos hne]

/-- Witness for `refresh_poll_spec`: a first poll that already returns an
assistant-terminated conversation of sufficient length is accepted. -/
theorem refresh_poll_spec_witness :
    ∃ i, i < 8 ∧ (obsW i).currentId = some "c1" ∧
      (obsW i).fetch = .ok convW ∧ 1 ≤ convW.messages.length ∧
      lastIsAssistant convW = true :=
  (refresh_poll_spec "c1" 1 obsW).1 convW rfl

end Client

namespace Ranks

/-- C5: a modelId whose label occurs in no successfully parsed order gets
no `AggregateRank` entry; every council member with at least one mention
gets an entry whose `averageRank` is the mean of its 1-based positions
and whose `evaluationCount` is the number of mentioning evaluations; and
concretely a model mentioned at positions 1 and 3 by two evaluators has
`averageRank` exactly 2. -/
theorem aggregate_rank_spec (models : List String) (labelOf : String → String)
    (evals : List PeerEvaluation) :
    (∀ mid, mentionPositions (labelOf mid) evals = [] →
      ∀ a ∈ aggregateRanks models labelOf evals, a.modelId ≠ mid) ∧
    (∀ mid ∈ models, ∀ ps, ps = mentionPositions (labelOf mid) evals →
      ps ≠ [] →
      ∃ a ∈ aggregateRanks models labelOf evals, a.modelId = mid ∧
        a.evaluationCount = ps.length ∧
        a.averageRank = (ps.map (fun n => (n : ℚ))).sum / ps.length) ∧
    aggregateRanks ["m"] (fun _ => "A")
      [⟨"e1", ["A"], false⟩, ⟨"e2", ["B", "C", "A"], false⟩] =
      [⟨"m", 2, 2⟩] := by
  refine ⟨?_, ?_, ?_⟩
  · intro mid hempty a ha hmid
    rcases List.mem_filterMap.mp ha with ⟨mid2, hmem2, hf⟩
    by_cases he : mentionPositions (labelOf mid2) evals = []
    · simp [he] at hf
    · simp [he] at hf
      subst hf
      apply he
      rw [show mid2 = mid from hmid]
      exact hempty
  · intro mid hmem ps hps hne
    refine ⟨⟨mid, (ps.map (fun n => (n : ℚ))).sum / ps.length, ps.length⟩,
      ?_, rfl, rfl, rfl⟩
    apply List.mem_filterMap.mpr
    refine ⟨mid, hmem, ?_⟩
    rw [← hps]
    simp [hne]
  · simp [aggregateRanks, mentionPositions, posOf]
    norm_num

/-- Witness for `aggregate_rank_spec`: the model mentioned at positions 1
and 3 gets the entry with mean rank 2 and count 2. -/
theorem aggregate_rank_spec_witness :
    ∃ a ∈ aggregateRanks ["m"] (fun _ => "A")
        [⟨"e1", ["A"], false⟩, ⟨"e2", ["B", "C", "A"], false⟩],
      a.modelId = "m" ∧
      a.evaluationCount = ([1, 3] : List Nat).length ∧
      a.averageRank =
        (([1, 3] : List Nat).map (fun n => (n : ℚ))).sum /
          ([1, 3] : List Nat).length :=
  (aggregate_rank_spec ["m"] (fun _ => "A")
    [⟨"e1", ["A"], false⟩, ⟨"e2", ["B", "C", "A"], false⟩]).2.1
    "m" (by decide) [1, 3] (by decide) (by decide)

end Ranks

namespace Sse

theorem normCRLF_eq_nil_iff (s : List Char) : normCRLF s = [] ↔ s = [] := by
  induction s using normCRLF.induct with
  | case1 => simp [normCRLF]
  | case2 c => simp [normCRLF]
  | case3 c1 c2 rest h ih => simp [normCRLF, h]
  | case4 c1 c2 rest h ih => simp [normCRLF, h]

theorem hasCRLF_append_false {x y : List Char}
    (h : hasCRLF (x ++ y) = false) :
    hasCRLF x = false ∧ hasCRLF y = false := by
  induction x using hasCRLF.induct with
  | case1 => exact ⟨rfl, by simpa using h⟩
  | case2 c =>
    refine ⟨rfl, ?_⟩
    rw [List.singleton_append] at h
    cases y with
    | nil => rfl
    | cons y1 ys =>
      simp only [hasCRLF] at h
      split at h
      · exact absurd h (by simp)
      · exact h
  | case3 c1 c2 rest hp =>
    rw [List.cons_append, List.cons_append, hasCRLF, if_pos hp] at h
    exact absurd h (by simp)
  | case4 c1 c2 rest hp ih =>
    rw [List.cons_append, List.cons_append, hasCRLF, if_neg hp] at h
    rw [← List.cons_append] at h
    rcases ih h with ⟨h1, h2⟩
    refine ⟨?_, h2⟩
    rw [hasCRLF, if_neg hp]
    exact h1

theorem hasCRCRLF_append_false {x y : List Char}
    (h : hasCRCRLF (x ++ y) = false) :
    hasCRCRLF x = false ∧ hasCRCRLF y = false := by
  induction x using hasCRCRLF.induct with
  | case1 => exact ⟨rfl, by simpa using h⟩
  | case2 c =>
    refine ⟨rfl, ?_⟩
    rw [List.singleton_append] at h
    cases y with
    | nil => rfl
    | cons y1 ys =>
      cases ys with
      | nil => rfl
      | cons y2 ys2 =>
        simp only [hasCRCRLF] at h
        split at h
        · exact absurd h (by simp)
        · exact h
  | case3 c1 c2 =>
    refine ⟨rfl, ?_⟩
    rw [List.cons_append, List.cons_append, List.nil_append] at h
    cases y with
    | nil => rfl
    | cons y1 ys =>
      simp only [hasCRCRLF] at h
      split at h
      · exact absurd h (by simp)
      · cases ys with
        | nil => rfl
        | cons y2 ys2 =>
          simp only [hasCRCRLF] at h
          split at h
          · exact absurd h (by simp)
          · exact h
  | case4 c1 c2 c3 rest hp =>
    rw [List.cons_append, List.cons_append, List.cons_append, hasCRCRLF,
      if_pos hp] at h
    exact absurd h (by simp)
  | case5 c1 c2 c3 rest hp ih =>
    rw [List.cons_append, List.cons_append, List.cons_append, hasCRCRLF,
      if_neg hp] at h
    rw [← List.cons_append, ← List.cons_append] at h
    rcases ih h with ⟨h1, h2⟩
    refine ⟨?_, h2⟩
    rw [hasCRCRLF, if_neg hp]
    exact h1

theorem normCRLF_of_not_hasCRLF {s : List Char} (h : hasCRLF s = false) :
    normCRLF s = s := by
  induction s using normCRLF.induct with
  | case1 => rfl
  | case2 c => rfl
  | case3 c1 c2 rest hp ih =>
    rw [hasCRLF, if_pos (by exact_mod_cast hp)] at h
    exact absurd h (by simp)
  | case4 c1 c2 rest hp ih =>
    rw [hasCRLF, if_neg hp] at h
    rw [normCRLF, if_neg hp, ih h]

theorem hasCRCRLF_cons_true {t : List Char} (c : Char)
    (h : hasCRCRLF t = true) : hasCRCRLF (c :: t) = true := by
  match t, h with
  | t1 :: t2 :: t3 :: rest, h =>
    rw [hasCRCRLF]
    split
    · rfl
    · exact h

theorem hasCRCRLF_cons_false {t : List Char} {c : Char}
    (h : hasCRCRLF (c :: t) = false) : hasCRCRLF t = false := by
  cases hb : hasCRCRLF t with
  | false => rfl
  | true => rw [hasCRCRLF_cons_true c hb] at h; exact absurd h (by simp)

theorem hasCRCRLF_intro (q y : List Char) :
    hasCRCRLF (q ++ '\r' :: '\r' :: '\n' :: y) = true := by
  induction q with
  | nil =>
    rw [List.nil_append, hasCRCRLF]
    rw [if_pos ⟨rfl, rfl, rfl⟩]
  | cons c q ih =>
    rw [List.cons_append]
    exact hasCRCRLF_cons_true c ih

theorem normCRLF_head {c : Char} {t : List Char}
    (h : (normCRLF (c :: t)).head? = some '\n') :
    c = '\n' ∨ (c = '\r' ∧ t.head? = some '\n') := by
  cases t with
  | nil =>
    rw [show normCRLF [c] = [c] from rfl] at h
    simp at h
    exact Or.inl h
  | cons t1 ts =>
    rw [normCRLF] at h
    split at h
    · rename_i hp
      exact Or.inr ⟨hp.1, by rw [hp.2]; rfl⟩
    · simp at h
      exact Or.inl h

theorem hasCRLF_normCRLF {s : List Char} (h : hasCRCRLF s = false) :
    hasCRLF (normCRLF s) = false := by
  induction s using normCRLF.induct with
  | case1 => rfl
  | case2 c => rfl
  | case3 c1 c2 rest hp ih =>
    have hr : hasCRCRLF rest = false :=
      hasCRCRLF_cons_false (hasCRCRLF_cons_false h)
    rw [normCRLF, if_pos hp]
    cases hn : normCRLF rest with
    | nil => rfl
    | cons x1 xs =>
      rw [hasCRLF]
      rw [if_neg (by rintro ⟨h1, h2⟩; cases h1)]
      rw [← hn]
      exact ih hr
  | case4 c1 c2 rest hp ih =>
    have hr : hasCRCRLF (c2 :: rest) = false := hasCRCRLF_cons_false h
    rw [normCRLF, if_neg hp]
    cases hn : normCRLF (c2 :: rest) with
    | nil => rfl
    | cons x1 xs =>
      rw [hasCRLF]
      split
      · rename_i hpair
        exfalso
        have hhead : (normCRLF (c2 :: rest)).head? = some '\n' := by
          rw [hn, hpair.2]; rfl
        rcases normCRLF_head hhead with h2 | ⟨h2, h3⟩
        · exact hp ⟨hpair.1, h2⟩
        · cases rest with
          | nil => simp at h3
          | cons r1 rs =>
            simp at h3
            rw [hpair.1, h2, h3] at h
            rw [hasCRCRLF, if_pos ⟨rfl, rfl, rfl⟩] at h
            exact absurd h (by simp)
      · rw [← hn]
        exact ih hr

theorem normCRLF_getLast_cr {s : List Char} :
    (normCRLF s).getLast? = some '\r' ↔ s.getLast? = some '\r' := by
  induction s using normCRLF.induct with
  | case1 => simp [normCRLF]
  | case2 c => rfl
  | case3 c1 c2 rest hp ih =>
    rw [normCRLF, if_pos hp]
    cases rest with
    | nil => simp [normCRLF, hp.2]
    | cons r1 rs =>
      rcases hn : normCRLF (r1 :: rs) with _ | ⟨a, as⟩
      · exact absurd ((normCRLF_eq_nil_iff _).mp hn) (by simp)
      · rw [List.getLast?_cons_cons, List.getLast?_cons_cons,
          List.getLast?_cons_cons]
        rw [hn] at ih
        exact ih
  | case4 c1 c2 rest hp ih =>
    rw [normCRLF, if_neg hp]
    have hnn : normCRLF (c2 :: rest) ≠ [] := by
      rw [(normCRLF_eq_nil_iff (c2 :: rest)).ne]; simp
    rcases List.exists_cons_of_ne_nil hnn with ⟨a, as, ha⟩
    rw [ha]
    rw [List.getLast?_cons_cons, ← ha]
    rw [List.getLast?_cons_cons]
    exact ih

theorem normCRLF_cons_cons (c1 c2 : Char) (rest : List Char) :
    normCRLF (c1 :: c2 :: rest) =
      if c1 = '\r' ∧ c2 = '\n' then '\n' :: normCRLF rest
      else c1 :: normCRLF (c2 :: rest) := rfl

theorem normCRLF_append {u v : List Char}
    (h : ¬(u.getLast? = some '\r' ∧ v.head? = some '\n')) :
    normCRLF (u ++ v) = normCRLF u ++ normCRLF v := by
  induction u using normCRLF.induct with
  | case1 => simp [normCRLF]
  | case2 c =>
    cases v with
    | nil => simp [normCRLF]
    | cons v1 vs =>
      rw [List.singleton_append, normCRLF_cons_cons]
      have hneg : ¬(c = '\r' ∧ v1 = '\n') := by
        rintro ⟨h1, h2⟩
        have ha : [c].getLast? = some '\r' := by rw [h1]; rfl
        have hb : (v1 :: vs).head? = some '\n' := by rw [h2]; rfl
        exact h ⟨ha, hb⟩
      rw [if_neg hneg]
      simp [normCRLF]
  | case3 c1 c2 rest hp ih =>
    rw [List.cons_append, List.cons_append, normCRLF_cons_cons, if_pos hp,
      normCRLF_cons_cons, if_pos hp]
    cases rest with
    | nil => simp [normCRLF]
    | cons r1 rs =>
      have h2 : ¬((r1 :: rs).getLast? = some '\r' ∧ v.head? = some '\n') := by
        rintro ⟨ha, hb⟩
        have ha2 : (c1 :: c2 :: r1 :: rs).getLast? = some '\r' := by
          rw [List.getLast?_cons_cons, List.getLast?_cons_cons]
          exact ha
        exact h ⟨ha2, hb⟩
      rw [ih h2]
      rfl
  | case4 c1 c2 rest hp ih =>
    rw [List.cons_append, List.cons_append, normCRLF_cons_cons, if_neg hp,
      normCRLF_cons_cons, if_neg hp]
    have h2 : ¬((c2 :: rest).getLast? = some '\r' ∧ v.head? = some '\n') := by
      rintro ⟨ha, hb⟩
      have ha2 : (c1 :: c2 :: rest).getLast? = some '\r' := by
        rw [List.getLast?_cons_cons]
        exact ha
      exact h ⟨ha2, hb⟩
    rw [← List.cons_append, ih h2]
    rfl

theorem splitBlocks_cons_cons (c1 c2 : Char) (rest : List Char) :
    splitBlocks (c1 :: c2 :: rest) =
      if c1 = '\n' ∧ c2 = '\n' then
        (([] : List Char) :: (splitBlocks rest).1, (splitBlocks rest).2)
      else
        match (splitBlocks (c2 :: rest)).1 with
        | [] => ([], c1 :: (splitBlocks (c2 :: rest)).2)
        | b :: bs => ((c1 :: b) :: bs, (splitBlocks (c2 :: rest)).2) := rfl

/-- Two-step structural induction for the two-character-lookahead scans. -/
theorem twoStepInduction {motive : List Char → Prop}
    (h1 : motive []) (h2 : ∀ c, motive [c])
    (h3 : ∀ c1 c2 rest, motive rest → motive (c2 :: rest) →
      motive (c1 :: c2 :: rest)) :
    ∀ s, motive s := by
  have H : ∀ (n : Nat) (s : List Char), s.length ≤ n → motive s := by
    intro n
    induction n with
    | zero =>
      intro s hs
      have h0 : s = [] := List.length_eq_zero.mp (Nat.le_zero.mp hs)
      rw [h0]
      exact h1
    | succ n ih =>
      intro s hs
      match s with
      | [] => exact h1
      | [c] => exact h2 c
      | c1 :: c2 :: rest =>
        have hr : rest.length ≤ n := by simp at hs; omega
        have hr2 : (c2 :: rest).length ≤ n := by simp at hs ⊢; omega
        exact h3 c1 c2 rest (ih rest hr) (ih (c2 :: rest) hr2)
  intro s
  exact H s.length s (le_refl _)

theorem splitBlocks_fst_nil {s : List Char}
    (h : (splitBlocks s).1 = []) : (splitBlocks s).2 = s := by
  induction s using twoStepInduction with
  | h1 => rfl
  | h2 c => rfl
  | h3 c1 c2 rest ih1 ih2 =>
    rw [splitBlocks_cons_cons] at h ⊢
    by_cases hp : c1 = '\n' ∧ c2 = '\n'
    · rw [if_pos hp] at h
      exact absurd h (by simp)
    · rw [if_neg hp] at h ⊢
      cases hq : (splitBlocks (c2 :: rest)).1 with
      | nil =>
        simp only [hq]
        rw [ih2 hq]
      | cons b bs =>
        rw [hq] at h
        exact absurd h (by simp)

theorem splitBlocks_append (u v : List Char) :
    splitBlocks (u ++ v) =
      ((splitBlocks u).1 ++ (splitBlocks ((splitBlocks u).2 ++ v)).1,
       (splitBlocks ((splitBlocks u).2 ++ v)).2) := by
  induction u using twoStepInduction with
  | h1 => simp [splitBlocks]
  | h2 c => simp [splitBlocks]
  | h3 c1 c2 rest ih1 ih2 =>
    by_cases hp : c1 = '\n' ∧ c2 = '\n'
    · rw [List.cons_append, List.cons_append, splitBlocks_cons_cons,
        if_pos hp, splitBlocks_cons_cons c1 c2 rest, if_pos hp]
      rw [ih1]
      rfl
    · cases hq : (splitBlocks (c2 :: rest)).1 with
      | nil =>
        have hres := splitBlocks_fst_nil hq
        have hu : splitBlocks (c1 :: c2 :: rest) = ([], c1 :: c2 :: rest) := by
          rw [splitBlocks_cons_cons, if_neg hp]
          simp only [hq, hres]
        rw [hu]
        simp
      | cons b bs =>
        simp only [List.cons_append] at ih2 ⊢
        rw [splitBlocks_cons_cons c1 c2 (rest ++ v), if_neg hp, ih2]
        rw [splitBlocks_cons_cons c1 c2 rest, if_neg hp]
        simp only [hq, List.cons_append]

theorem hasNLNL_cons_cons (c1 c2 : Char) (rest : List Char) :
    hasNLNL (c1 :: c2 :: rest) =
      if c1 = '\n' ∧ c2 = '\n' then true else hasNLNL (c2 :: rest) := rfl

theorem splitBlocks_fst_nil_nosep {s : List Char}
    (h : (splitBlocks s).1 = []) : hasNLNL s = false := by
  induction s using twoStepInduction with
  | h1 => rfl
  | h2 c => rfl
  | h3 c1 c2 rest ih1 ih2 =>
    rw [splitBlocks_cons_cons] at h
    by_cases hp : c1 = '\n' ∧ c2 = '\n'
    · rw [if_pos hp] at h
      exact absurd h (by simp)
    · rw [if_neg hp] at h
      rw [hasNLNL_cons_cons, if_neg hp]
      cases hq : (splitBlocks (c2 :: rest)).1 with
      | nil => exact ih2 hq
      | cons b bs =>
        rw [hq] at h
        exact absurd h (by simp)

theorem splitBlocks_decomp (s : List Char) :
    ∃ C, s = C ++ (splitBlocks s).2 := by
  induction s using twoStepInduction with
  | h1 => exact ⟨[], rfl⟩
  | h2 c => exact ⟨[], rfl⟩
  | h3 c1 c2 rest ih1 ih2 =>
    by_cases hp : c1 = '\n' ∧ c2 = '\n'
    · rw [splitBlocks_cons_cons, if_pos hp]
      rcases ih1 with ⟨C, hC⟩
      exact ⟨c1 :: c2 :: C, by rw [List.cons_append, List.cons_append, ← hC]⟩
    · rw [splitBlocks_cons_cons, if_neg hp]
      cases hq : (splitBlocks (c2 :: rest)).1 with
      | nil =>
        refine ⟨[], ?_⟩
        rw [List.nil_append]
        simp only [splitBlocks_fst_nil hq]
      | cons b bs =>
        rcases ih2 with ⟨C, hC⟩
        exact ⟨c1 :: C, by rw [List.cons_append, ← hC]⟩

theorem splitBlocks_resid_nosep (s : List Char) :
    hasNLNL (splitBlocks s).2 = false := by
  induction s using twoStepInduction with
  | h1 => rfl
  | h2 c => rfl
  | h3 c1 c2 rest ih1 ih2 =>
    by_cases hp : c1 = '\n' ∧ c2 = '\n'
    · rw [splitBlocks_cons_cons, if_pos hp]
      exact ih1
    · rw [splitBlocks_cons_cons, if_neg hp]
      cases hq : (splitBlocks (c2 :: rest)).1 with
      | nil =>
        simp only
        rw [splitBlocks_fst_nil hq, hasNLNL_cons_cons, if_neg hp]
        exact splitBlocks_fst_nil_nosep hq
      | cons b bs =>
        simp only
        exact ih2

theorem splitBlocks_of_nosep {s : List Char} (h : hasNLNL s = false) :
    splitBlocks s = ([], s) := by
  induction s using twoStepInduction with
  | h1 => rfl
  | h2 c => rfl
  | h3 c1 c2 rest ih1 ih2 =>
    rw [hasNLNL_cons_cons] at h
    split at h
    · exact absurd h (by simp)
    · rename_i hp
      rw [splitBlocks_cons_cons, if_neg hp, ih2 h]

theorem hasNLNL_snoc {y : List Char} {a : Char} (h : hasNLNL y = false)
    (ha : a ≠ '\n') : hasNLNL (y ++ [a]) = false := by
  induction y using twoStepInduction with
  | h1 => rfl
  | h2 c =>
    rw [List.singleton_append, hasNLNL_cons_cons]
    rw [if_neg (by rintro ⟨h1, h2⟩; exact ha h2)]
    rfl
  | h3 c1 c2 rest ih1 ih2 =>
    rw [hasNLNL_cons_cons] at h
    split at h
    · exact absurd h (by simp)
    · rename_i hp
      rw [List.cons_append, List.cons_append, hasNLNL_cons_cons, if_neg hp,
        ← List.cons_append]
      exact ih2 h

theorem splitBlocks_snoc_cr (x : List Char) :
    splitBlocks (x ++ ['\r']) =
      ((splitBlocks x).1, (splitBlocks x).2 ++ ['\r']) := by
  rw [splitBlocks_append x ['\r']]
  have h1 : hasNLNL ((splitBlocks x).2 ++ ['\r']) = false :=
    hasNLNL_snoc (splitBlocks_resid_nosep x) (by decide)
  rw [splitBlocks_of_nosep h1]
  simp

theorem splitBlocks_resid_nil {s : List Char}
    (h : (splitBlocks s).2 = []) : s = [] ∨ s.getLast? = some '\n' := by
  induction s using twoStepInduction with
  | h1 => exact Or.inl rfl
  | h2 c =>
    exact absurd h (by simp [splitBlocks])
  | h3 c1 c2 rest ih1 ih2 =>
    rw [splitBlocks_cons_cons] at h
    by_cases hp : c1 = '\n' ∧ c2 = '\n'
    · rw [if_pos hp] at h
      rcases ih1 h with h2 | h2
      · right
        rw [h2, hp.1, hp.2]
        rfl
      · right
        cases hr : rest with
        | nil => rw [hr] at h2; simp at h2
        | cons r1 rs =>
          rw [hr] at h2
          rw [List.getLast?_cons_cons, List.getLast?_cons_cons]
          exact h2
    · rw [if_neg hp] at h
      cases hq : (splitBlocks (c2 :: rest)).1 with
      | nil =>
        rw [hq] at h
        exact absurd h (by simp)
      | cons b bs =>
        rw [hq] at h
        rcases ih2 h with h2 | h2
        · exact absurd h2 (by simp)
        · right
          rw [List.getLast?_cons_cons]
          exact h2

/-- One read iteration commutes with having processed the prefix: the
blocks of the re-normalized whole input are the already-emitted blocks
followed by the blocks produced from the buffered remainder plus the new
chunk — provided the input contains no CR CR LF. -/
theorem stepLemma (p c : List Char) (h : hasCRCRLF (p ++ c) = false) :
    splitBlocks (normCRLF (p ++ c)) =
      ((splitBlocks (normCRLF p)).1 ++
        (splitBlocks (normCRLF ((splitBlocks (normCRLF p)).2 ++ c))).1,
       (splitBlocks (normCRLF ((splitBlocks (normCRLF p)).2 ++ c))).2) := by
  have hp : hasCRCRLF p = false := (hasCRCRLF_append_false h).1
  have hN : hasCRLF (normCRLF p) = false := hasCRLF_normCRLF hp
  obtain ⟨C, hC⟩ := splitBlocks_decomp (normCRLF p)
  set N := normCRLF p with hNdef
  set r := (splitBlocks N).2 with hrdef
  have hNr : hasCRLF (C ++ r) = false := by rw [← hC]; exact hN
  have hrCRLF : hasCRLF r = false := (hasCRLF_append_false hNr).2
  have hrnorm : normCRLF r = r := normCRLF_of_not_hasCRLF hrCRLF
  by_cases hcross : p.getLast? = some '\r' ∧ c.head? = some '\n'
  · obtain ⟨hpl, hcl⟩ := hcross
    obtain ⟨c2, hc2⟩ : ∃ c2, c = '\n' :: c2 := by
      cases c with
      | nil => simp at hcl
      | cons a as =>
        simp at hcl
        exact ⟨as, by rw [hcl]⟩
    obtain ⟨p0, hp0⟩ : ∃ p0, p = p0 ++ ['\r'] :=
      ⟨p.dropLast,
        (List.dropLast_append_getLast? '\r' (Option.mem_def.mpr hpl)).symm⟩
    have hp0r : ¬p0.getLast? = some '\r' := by
      intro h0
      obtain ⟨q, hq⟩ : ∃ q, p0 = q ++ ['\r'] :=
        ⟨p0.dropLast,
          (List.dropLast_append_getLast? '\r' (Option.mem_def.mpr h0)).symm⟩
      have hbad : p ++ c = q ++ '\r' :: '\r' :: '\n' :: c2 := by
        rw [hp0, hq, hc2]
        simp
      rw [hbad, hasCRCRLF_intro] at h
      exact absurd h (by simp)
    have hnorm_p : N = normCRLF p0 ++ ['\r'] := by
      rw [hNdef, hp0, normCRLF_append (by rintro ⟨_, hx⟩; simp at hx)]
      rfl
    have hnorm_pc : normCRLF (p ++ c) = normCRLF p0 ++ '\n' :: normCRLF c2 := by
      rw [hp0, hc2]
      have hassoc : (p0 ++ ['\r']) ++ '\n' :: c2 = p0 ++ ('\r' :: '\n' :: c2) := by
        simp
      rw [hassoc, normCRLF_append (by rintro ⟨_, hx⟩; simp at hx)]
      congr 1
    have hNlast : N.getLast? = some '\r' := by
      rw [hnorm_p, List.getLast?_append_of_ne_nil _ (by simp)]
      rfl
    have hrne : r ≠ [] := by
      intro h0
      rcases splitBlocks_resid_nil (hrdef ▸ h0) with h1 | h1
      · rw [h1] at hNlast
        simp at hNlast
      · have := h1.symm.trans hNlast
        simp at this
    have hrlast : r.getLast? = some '\r' := by
      rw [hC, List.getLast?_append_of_ne_nil _ hrne] at hNlast
      exact hNlast
    obtain ⟨r0, hr0⟩ : ∃ r0, r = r0 ++ ['\r'] :=
      ⟨r.dropLast,
        (List.dropLast_append_getLast? '\r' (Option.mem_def.mpr hrlast)).symm⟩
    have hsp0 : splitBlocks (normCRLF p0) = ((splitBlocks N).1, r0) := by
      have hsb := splitBlocks_snoc_cr (normCRLF p0)
      rw [← hnorm_p] at hsb
      have h1 : (splitBlocks N).1 = (splitBlocks (normCRLF p0)).1 := by
        rw [hsb]
      have h2 : r = (splitBlocks (normCRLF p0)).2 ++ ['\r'] := by
        rw [hrdef, hsb]
      have h3 : r0 = (splitBlocks (normCRLF p0)).2 :=
        List.append_cancel_right (hr0.symm.trans h2)
      rw [h1, h3]
    have hr0CRLF : hasCRLF r0 = false := by
      have := hr0 ▸ hrCRLF
      exact (hasCRLF_append_false this).1
    have hr0norm : normCRLF r0 = r0 := normCRLF_of_not_hasCRLF hr0CRLF
    have hnorm_rc : normCRLF (r ++ c) = r0 ++ '\n' :: normCRLF c2 := by
      rw [hr0, hc2]
      have hassoc : (r0 ++ ['\r']) ++ '\n' :: c2 = r0 ++ ('\r' :: '\n' :: c2) := by
        simp
      rw [hassoc, normCRLF_append (by rintro ⟨_, hx⟩; simp at hx), hr0norm]
      congr 1
    rw [hnorm_pc, hnorm_rc,
      splitBlocks_append (normCRLF p0) ('\n' :: normCRLF c2), hsp0]
  · have h1 : normCRLF (p ++ c) = N ++ normCRLF c := normCRLF_append hcross
    have h2 : normCRLF (r ++ c) = r ++ normCRLF c := by
      rw [normCRLF_append ?hzz, hrnorm]
      case hzz =>
        rintro ⟨ha, hb⟩
        have hrne : r ≠ [] := by
          intro h0
          rw [h0] at ha
          simp at ha
        have hNl : N.getLast? = some '\r' := by
          rw [hC, List.getLast?_append_of_ne_nil _ hrne]
          exact ha
        have hpl : p.getLast? = some '\r' := normCRLF_getLast_cr.mp hNl
        exact hcross ⟨hpl, hb⟩
    rw [h1, h2]
    exact splitBlocks_append N (normCRLF c)

theorem runBlocks_join : ∀ (cs : List (List Char)) (p : List Char),
    hasCRCRLF (p ++ cs.flatten) = false →
    (splitBlocks (normCRLF p)).1 ++
        runBlocks cs (splitBlocks (normCRLF p)).2 =
      (splitBlocks (normCRLF (p ++ cs.flatten))).1 ++
        [(splitBlocks (normCRLF (p ++ cs.flatten))).2] := by
  intro cs
  induction cs with
  | nil =>
    intro p h
    simp only [List.flatten_nil, List.append_nil] at h ⊢
    simp only [runBlocks]
    have hp : hasCRCRLF p = false := h
    have hN := hasCRLF_normCRLF hp
    obtain ⟨C, hC⟩ := splitBlocks_decomp (normCRLF p)
    have hNC : hasCRLF (C ++ (splitBlocks (normCRLF p)).2) = false := by
      rw [← hC]
      exact hN
    have hr : hasCRLF (splitBlocks (normCRLF p)).2 = false :=
      (hasCRLF_append_false hNC).2
    rw [normCRLF_of_not_hasCRLF hr,
      splitBlocks_of_nosep (splitBlocks_resid_nosep (normCRLF p))]
    simp
  | cons c cs ih =>
    intro p h
    have hassoc : p ++ (c :: cs).flatten = (p ++ c) ++ cs.flatten := by
      rw [List.flatten_cons, ← List.append_assoc]
    have h2 : hasCRCRLF ((p ++ c) ++ cs.flatten) = false := by
      rw [← hassoc]
      exact h
    have hpc : hasCRCRLF (p ++ c) = false := (hasCRCRLF_append_false h2).1
    have hK := stepLemma p c hpc
    have hih := ih (p ++ c) h2
    simp only [runBlocks]
    rw [← List.append_assoc]
    have hK1 : (splitBlocks (normCRLF p)).1 ++
        (splitBlocks (normCRLF ((splitBlocks (normCRLF p)).2 ++ c))).1 =
        (splitBlocks (normCRLF (p ++ c))).1 := by
      rw [hK]
    have hK2 : (splitBlocks (normCRLF ((splitBlocks (normCRLF p)).2 ++ c))).2 =
        (splitBlocks (normCRLF (p ++ c))).2 := by
      rw [hK]
    rw [hK1, hK2, hih, hassoc]

theorem runBlocks_chunk_invariant (cs : List (List Char))
    (h : hasCRCRLF cs.flatten = false) :
    runBlocks cs [] = runBlocks [cs.flatten] [] := by
  have h1 := runBlocks_join cs [] (by simpa using h)
  have h2 := runBlocks_join [cs.flatten] [] (by simpa using h)
  simp only [List.nil_append] at h1 h2
  rw [show normCRLF [] = [] from rfl,
    show splitBlocks [] = ([], []) from rfl] at h1 h2
  simp only [List.nil_append] at h1 h2
  rw [h1, h2]
  simp

/-- Counterexample: the delivered event sequence depends on the chunking.
For the byte stream `"data: 1\n\r\r\r\ndata: 2"`, delivering it as one
chunk yields no events (the two data lines end up in a single block whose
joined payload `"1\n2"` is not valid JSON), while splitting it after the
`"\r\r\r\n"` yields the two events `1` and `2`: the `\r\n`-normalization
is re-applied to the buffered remainder once per read, so an extra chunk
boundary manufactures a `"\n\n"` separator that the single-chunk run
never sees. -/
theorem sse_decode_chunk_dependent :
    ("data: 1\n\r\r\r\ndata: 2").toList =
      ("data: 1\n\r\r\r\n").toList ++ ("data: 2").toList ∧
    sendMessageStream pJson [("data: 1\n\r\r\r\ndata: 2").toList] = [] ∧
    sendMessageStream pJson
      [("data: 1\n\r\r\r\n").toList, ("data: 2").toList] = [1, 2] :=
  ⟨by decide, by decide, by decide⟩

/-- C9 (amended): for streams that do not contain the byte sequence
CR CR LF, `sendMessageStream` delivers the same ordered event sequence no
matter how the transport chunks the bytes; event blocks are buffered
until a blank-line separator and a trailing block without a terminator is
still delivered after the stream ends; and a block with no `data:` line
(like one with unparseable JSON, whose `parse` returns `none`) is skipped
without terminating the stream. -/
theorem sse_stream_decode_spec {E : Type} (parse : List Char → Option E)
    (chunks : List (List Char)) (s bl : List Char) :
    (hasCRCRLF chunks.flatten = false →
      sendMessageStream parse chunks =
        sendMessageStream parse [chunks.flatten]) ∧
    (hasCRLF s = false → hasNLNL s = false →
      sendMessageStream parse [s] = (parseEventBlock parse s).toList) ∧
    ((splitOnNL (trim bl)).filter isDataLine = [] →
      parseEventBlock parse bl = none) := by
  refine ⟨?_, ?_, ?_⟩
  · intro h
    unfold sendMessageStream
    rw [runBlocks_chunk_invariant chunks h]
  · intro h1 h2
    unfold sendMessageStream
    simp only [runBlocks, List.nil_append]
    rw [normCRLF_of_not_hasCRLF h1, splitBlocks_of_nosep h2]
    simp only [List.nil_append]
    rw [normCRLF_of_not_hasCRLF h1, splitBlocks_of_nosep h2]
    simp only [List.nil_append, List.filterMap_cons, List.filterMap_nil]
    cases parseEventBlock parse s <;> rfl
  · intro h
    unfold parseEventBlock
    by_cases ht : trim bl = []
    · simp [ht]
    · simp [ht, h]

/-- Witness for `sse_stream_decode_spec`: a CR-free stream split in the
middle of a data line decodes identically to the unsplit stream. -/
theorem sse_stream_decode_spec_witness :
    sendMessageStream pJson
      [("data: 1\n\nda").toList, ("ta: 2").toList] =
      sendMessageStream pJson
        [[("data: 1\n\nda").toList, ("ta: 2").toList].flatten] :=
  (sse_stream_decode_spec pJson
    [("data: 1\n\nda").toList, ("ta: 2").toList] [] []).1 (by decide)

end Sse
